import Mathlib

set_option maxRecDepth 8000

/-!
Shallow embedding of `src/sync.py` (GlobalGlass-SyncTool-Python).

The program extracts four tables from a local database, transforms one of
them, clears the corresponding remote tables over HTTP and uploads the data
in chunks of 500 records, with a bounded retry loop around every HTTP call.

Modelling conventions:
* Python scalar values are the inductive `PyVal`; `Decimal` carries its exact
  rational value, `float` carries the rational value of the IEEE-754 double.
* `json.dumps(..., cls=DecimalEncoder)` is `encode_chunk` / `encode_record` /
  `encodeValue`; a `TypeError` raised by the base encoder is `none`.
* CPython's `float(Decimal(...))` performs correctly-rounded conversion to
  binary64 (round to nearest, ties to even); it is modelled by
  `nearestDouble` on the exact rational value, ignoring overflow to
  infinity (irrelevant for the claims, which concern in-range values).
* The network is an oracle `World : Nat → HttpOutcome` giving the outcome of
  the n-th HTTP call actually performed during the run; `time.sleep` has no
  observable effect in the model and is dropped.
-/

namespace SyncTool

/-- Python runtime values that can appear as a record field in this program:
the JSON-native scalars, `decimal.Decimal` (exact rational value), and
non-JSON-serializable database values such as dates or binary blobs. -/
inductive PyVal where
  | pstr (s : String)
  | pint (n : Int)
  | pfloat (q : ℚ)
  | pbool (b : Bool)
  | pnone
  | pdecimal (q : ℚ)
  | pdate (y m d : Nat)
  | pbytes (bs : List Nat)
deriving DecidableEq

/-- A row as built by `execute_query` (src/sync.py:107): an ordered mapping
field name → value, `dict(zip(columns, row))`. -/
abbrev Record := List (String × PyVal)

/-- JSON values produced by the encoder. -/
inductive JVal where
  | jstr (s : String)
  | jint (n : Int)
  | jnum (q : ℚ)
  | jbool (b : Bool)
  | jnull
  | jobj (fields : List (String × JVal))
  | jarr (items : List JVal)

/-- Round a rational to the nearest integer, ties to even (IEEE-754 default
rounding, used by CPython for `float(Decimal)` conversion). -/
def roundNearestEven (x : ℚ) : ℤ :=
  let f : ℤ := ⌊x⌋
  let r : ℚ := x - (f : ℚ)
  if r < 1/2 then f
  else if 1/2 < r then f + 1
  else if f % 2 = 0 then f else f + 1

/-- Fuel-driven floor of log₂ of a positive rational (executable, structural
recursion so that the kernel can evaluate it). -/
def qlog2Fuel : Nat → ℚ → ℤ
  | 0, _ => 0
  | fuel + 1, q =>
    if q < 1 then qlog2Fuel fuel (q * 2) - 1
    else if 2 ≤ q then qlog2Fuel fuel (q / 2) + 1
    else 0

/-- Floor of log₂ of a positive rational; the fuel bound is generous enough
for every positive rational. -/
def qlog2 (q : ℚ) : ℤ :=
  qlog2Fuel (2 * (q.num.natAbs + q.den) + 2) q

/-- Multiply a rational by 2^k (k an integer), implemented on the numerator
and denominator directly so that concrete values evaluate cheaply. -/
def shift2 (k : ℤ) (x : ℚ) : ℚ :=
  if 0 ≤ k then mkRat (x.num * 2 ^ k.toNat) x.den
  else mkRat x.num (x.den * 2 ^ (-k).toNat)

/-- The IEEE-754 binary64 value nearest to a rational (round to nearest,
ties to even; subnormals via the exponent clamp at -1022; overflow to
infinity is not modelled). This models CPython `float(Decimal(...))`
(src/sync.py:15), which performs correctly rounded conversion. -/
def nearestDouble (q : ℚ) : ℚ :=
  if q = 0 then 0
  else
    let a : ℚ := |q|
    let e : ℤ := max (qlog2 a) (-1022)
    let m : ℤ := roundNearestEven (shift2 (52 - e) a)
    let v : ℚ := shift2 (e - 52) (m : ℚ)
    if q < 0 then -v else v

/-- `DecimalEncoder.default` (src/sync.py:13-16): `Decimal` values become
`float(obj)`; every other non-native value falls through to
`json.JSONEncoder.default`, which raises `TypeError` (modelled as `none`). -/
def decimalEncoderDefault : PyVal → Option JVal
  | .pdecimal q => some (.jnum (nearestDouble q))
  | _ => none

/-- Encoding of one scalar by `json.dumps(..., cls=DecimalEncoder)`:
JSON-native values are encoded directly, anything else goes through
`DecimalEncoder.default`. -/
def encodeValue : PyVal → Option JVal
  | .pstr s => some (.jstr s)
  | .pint n => some (.jint n)
  | .pfloat q => some (.jnum q)
  | .pbool b => some (.jbool b)
  | .pnone => some .jnull
  | v => decimalEncoderDefault v

/-- Values for which serialization cannot raise: JSON-native scalars plus
`Decimal` (handled by `DecimalEncoder`). -/
def supportedVal : PyVal → Bool
  | .pdate _ _ _ => false
  | .pbytes _ => false
  | _ => true

/-- JSON encoding of one record (a JSON object); fails if any field value
raises `TypeError`. -/
def encode_record : Record → Option (List (String × JVal))
  | [] => some []
  | (k, v) :: rest => do
    let jv ← encodeValue v
    let jrest ← encode_record rest
    pure ((k, jv) :: jrest)

/-- JSON encoding of a chunk (a JSON array of objects), as performed by
`json.dumps(data, cls=DecimalEncoder)` at src/sync.py:204. -/
def encode_chunk : List Record → Option (List JVal)
  | [] => some []
  | r :: rs => do
    let jr ← encode_record r
    let jrs ← encode_chunk rs
    pure (.jobj jr :: jrs)

/-- Python `range(0, stop, step)` for `step ≥ 1`: the indices `j * step`
with `j * step < stop`, i.e. `j < ceil(stop / step)` (Python's documented
semantics of `range`; `step = 0` raises and never occurs here, the only
caller passes 500). -/
def rangeStep (stop step : Nat) : List Nat :=
  (List.range ((stop + step - 1) / step)).map (fun j => j * step)

/-- `chunk_data` (src/sync.py:191-193): `for i in range(0, len(data_list),
chunk_size): yield data_list[i:i + chunk_size]`; the slice
`l[i:i+s]` is `(l.drop i).take s`. -/
def chunk_data (data_list : List α) (chunk_size : Nat) : List (List α) :=
  (rangeStep data_list.length chunk_size).map
    (fun i => (data_list.drop i).take chunk_size)

/-- Recursive characterization of `chunk_data`, used in proofs. -/
def chunkRec (s : Nat) : List α → List (List α)
  | [] => []
  | x :: xs => (x :: xs).take s :: chunkRec s (xs.drop (s - 1))
termination_by l => l.length
decreasing_by simp [List.length_drop]; omega

/-- Outcome of one HTTP call: a response with a status code, or a
transport-level exception. -/
inductive HttpOutcome where
  | status (code : Nat)
  | exc
deriving DecidableEq

/-- The network environment: outcome of the n-th HTTP call performed during
the run. -/
abbrev World := Nat → HttpOutcome

/-- The success test at src/sync.py:209: `response.status_code in [200, 204]`.
A transport exception never reaches this test (it is caught below). -/
def statusOk : HttpOutcome → Bool
  | .status c => c = 200 || c = 204
  | .exc => false

/-- Result of `make_request_with_retry`: the returned pair
`(success, response)` plus instrumentation — how many loop iterations ran
(`tries`), the outcomes of the HTTP calls actually performed (`attempts`),
and the next unused index of the `World` oracle (`next`). -/
structure ReqResult where
  ok : Bool
  resp : Option HttpOutcome
  tries : Nat
  attempts : List HttpOutcome
  next : Nat
deriving DecidableEq

/-- The body passed to `requests.post` (src/sync.py:202-207):
`json.dumps(data, cls=DecimalEncoder) if data else None`. `none` means no
body was serialized (data is `None` or falsy); an inner `none` result of
`encode_chunk` means `json.dumps` raised. -/
def serializeBody : Option (List Record) → Option (Option JVal)
  | none => some none
  | some chunk =>
    if chunk.isEmpty then some none
    else (encode_chunk chunk).map (fun js => some (JVal.jarr js))

/-- The retry loop of `make_request_with_retry` (src/sync.py:195-221),
recursing on the remaining iterations of `for retry in range(retries)`.
An iteration performs an HTTP call unless serialization of the body raises
first (the `except` at line 216 catches both cases and retries); a call with
status in [200, 204] returns `(True, response)`; exhausting the loop
returns `(False, None)`. -/
def request_retry_loop (w : World) (body : Option (List Record))
    (method : String) : Nat → Nat → ReqResult
  | 0, k => ⟨false, none, 0, [], k⟩
  | fuel + 1, k =>
    let httpCall : Bool := (method = "DELETE") || (serializeBody body).isSome
    if httpCall then
      let o := w k
      if statusOk o then ⟨true, some o, 1, [o], k + 1⟩
      else
        let r := request_retry_loop w body method fuel (k + 1)
        ⟨r.ok, r.resp, r.tries + 1, o :: r.attempts, r.next⟩
    else
      let r := request_retry_loop w body method fuel k
      ⟨r.ok, r.resp, r.tries + 1, r.attempts, r.next⟩

/-- `make_request_with_retry(url, data, method, retries)` (src/sync.py:195).
The url does not influence the modelled behaviour (the oracle `w` already
fixes each call's outcome), so it is not a parameter here; call sites record
it in the operation trace instead. -/
def make_request_with_retry (w : World) (body : Option (List Record))
    (method : String) (retries : Nat) (k : Nat) : ReqResult :=
  request_retry_loop w body method retries k

/-- The fixed table order of `clear_and_upload_data` (src/sync.py:223). -/
def table_names : List String := ["products", "batches", "masters", "users"]

/-- The `endpoints` dictionary (src/sync.py:172-189): for each table name
its `(clear, chunk)` endpoint pair. Any other key would raise `KeyError` in
Python; that case is unreachable because both loops iterate exactly over
`table_names`, so the default is arbitrary. -/
def endpoints (t : String) : String × String :=
  if t = "products" then ("/api/clear/products", "/api/sync/products/chunk")
  else if t = "batches" then ("/api/clear/productbatches", "/api/sync/productbatches/chunk")
  else if t = "masters" then ("/api/clear/masters", "/api/sync/masters/chunk")
  else if t = "users" then ("/api/clear/users", "/api/sync/users/chunk")
  else ("", "")

/-- The in-memory `data` dictionary: ordered association of table name to
extracted record list. `table in data` / `data[table]` is `List.lookup`. -/
abbrev DataMap := List (String × List Record)

/-- One completed call of `make_request_with_retry` at the orchestrator
level: HTTP method, full URL, overall success, loop iterations, and the
outcomes of the HTTP calls performed. -/
structure OpEv where
  method : String
  url : String
  ok : Bool
  tries : Nat
  attempts : List HttpOutcome
deriving DecidableEq

/-- Result of a (partial) run of `clear_and_upload_data`: the returned
boolean, the next unused oracle index, and the trace of retried operations
in the order they were performed. -/
structure PhaseResult where
  ok : Bool
  next : Nat
  ops : List OpEv
deriving DecidableEq

/-- The clear loop (src/sync.py:229-240): for each table with a non-empty
local record list, DELETE its clear endpoint with retry; on failure return
`False` at once (remaining tables are neither cleared nor uploaded). Tables
that are absent or empty are skipped entirely. -/
def runClear (base : String) (data : DataMap) (w : World) :
    List String → Nat → PhaseResult
  | [], k => ⟨true, k, []⟩
  | t :: rest, k =>
    match List.lookup t data with
    | none => runClear base data w rest k
    | some l =>
      if l.isEmpty then runClear base data w rest k
      else
        let r := make_request_with_retry w none "DELETE" 3 k
        let ev : OpEv := ⟨"DELETE", base ++ (endpoints t).1, r.ok, r.tries, r.attempts⟩
        if r.ok then
          let p := runClear base data w rest r.next
          ⟨p.ok, p.next, ev :: p.ops⟩
        else ⟨false, r.next, [ev]⟩

/-- The inner chunk loop (src/sync.py:260-269): POST each chunk in order to
the table's chunk endpoint with retry; on failure return `False` at once. -/
def runUploadChunks (base : String) (t : String) (w : World) :
    List (List Record) → Nat → PhaseResult
  | [], k => ⟨true, k, []⟩
  | c :: cs, k =>
    let r := make_request_with_retry w (some c) "POST" 3 k
    let ev : OpEv := ⟨"POST", base ++ (endpoints t).2, r.ok, r.tries, r.attempts⟩
    if r.ok then
      let p := runUploadChunks base t w cs r.next
      ⟨p.ok, p.next, ev :: p.ops⟩
    else ⟨false, r.next, [ev]⟩

/-- The upload loop (src/sync.py:248-272): for each table present in `data`,
skip it if empty ("No data to upload"), otherwise upload its 500-record
chunks in order; a failed chunk aborts the whole phase. -/
def runUpload (base : String) (data : DataMap) (w : World) :
    List String → Nat → PhaseResult
  | [], k => ⟨true, k, []⟩
  | t :: rest, k =>
    match List.lookup t data with
    | none => runUpload base data w rest k
    | some l =>
      if l.isEmpty then runUpload base data w rest k
      else
        let u := runUploadChunks base t w (chunk_data l 500) k
        if u.ok then
          let p := runUpload base data w rest u.next
          ⟨p.ok, p.next, u.ops ++ p.ops⟩
        else ⟨false, u.next, u.ops⟩

/-- `clear_and_upload_data` (src/sync.py:157-278): clear every non-empty
table first; only if all clears succeeded, upload all tables in chunks.
The surrounding `try/except` only converts exceptions to `False`; no
modelled operation raises past `make_request_with_retry`. -/
def clear_and_upload_data (base : String) (data : DataMap) (w : World) :
    PhaseResult :=
  let c := runClear base data w table_names 0
  if c.ok then
    let u := runUpload base data w table_names c.next
    ⟨u.ok, u.next, c.ops ++ u.ops⟩
  else c

/-- The four extraction queries of `fetch_data` (src/sync.py:121-126). -/
def productsQuery : String :=
  "SELECT code, name, product, brand, unit, taxcode, defect, company FROM acc_product"

def batchesQuery : String :=
  "SELECT productcode, cost, salesprice, bmrp, barcode, secondprice, thirdprice FROM acc_productbatch"

def customersQuery : String :=
  "SELECT code, name, super_code, address, phone, phone2 FROM acc_master WHERE super_code = 'DEBTO'"

def usersQuery : String :=
  "SELECT id, pass, role FROM acc_users"

/-- The database as an oracle from query text to result rows; `none` models
a `pyodbc.Error` raised during execution. -/
abbrev Database := String → Option (List Record)

/-- `execute_query` (src/sync.py:99-112): returns the rows, or — if the
query raised `pyodbc.Error` — prints the error and returns the empty list. -/
def execute_query (db : Database) (query : String) : List Record :=
  (db query).getD []

/-- Python `dict.pop(k)`'s removal effect on an (ordered, unique-keyed)
dictionary: drop the entry with key `k`. -/
def popKey (k : String) : Record → Record
  | [] => []
  | (k', v) :: rest => if k' = k then rest else (k', v) :: popKey k rest

/-- Python `d[k] = v` on an ordered dictionary: replace the value in place
if the key is present, otherwise append the new entry at the end. -/
def setKey (k : String) (v : PyVal) : Record → Record
  | [] => [(k, v)]
  | (k', v') :: rest => if k' = k then (k, v) :: rest else (k', v') :: setKey k v rest

/-- The users-record transform (src/sync.py:136-138):
`if 'pass' in user: user['pass_field'] = user.pop('pass')` — the `pop` on
the right-hand side runs first, then the assignment. -/
def transform_user (user : Record) : Record :=
  match List.lookup "pass" user with
  | some v => setKey "pass_field" v (popKey "pass" user)
  | none => user

/-- `fetch_data` (src/sync.py:115-154): extract the four tables in order;
`customers` results are stored under the `masters` key, `users` records get
the `pass` → `pass_field` rename. A failed query contributes `[]`. -/
def fetch_data (db : Database) : DataMap :=
  [("products", execute_query db productsQuery),
   ("batches", execute_query db batchesQuery),
   ("masters", execute_query db customersQuery),
   ("users", (execute_query db usersQuery).map transform_user)]

/-- The exit decision of `main` (src/sync.py:296-329): `sys.exit(0)` when
`clear_and_upload_data` returned `True`, `sys.exit(1)` otherwise. -/
def main_exit_code (base : String) (db : Database) (w : World) : Nat :=
  if (clear_and_upload_data base (fetch_data db) w).ok then 0 else 1

/-- Fixture: a network on which every HTTP call returns 200. -/
def wAll200 : World := fun _ => .status 200

/-- Fixture: a network on which every HTTP call raises a transport error. -/
def wAllExc : World := fun _ => .exc

/-- Fixture: a one-field product record. -/
def r0 : Record := [("code", .pint 1)]

/-- Fixture: a database on which the products query raises `pyodbc.Error`
and every other query returns no rows. -/
def dbProductsFail : Database := fun q => if q = productsQuery then none else some []

/-! ### Chunker lemmas -/

theorem ceil_div_rec (s n : ℕ) (hs : 1 ≤ s) (hn : 1 ≤ n) :
    (n + s - 1) / s = (n - s + s - 1) / s + 1 := by
  rcases le_or_lt n s with h | h
  · have h1 : n + s - 1 = (n - 1) + s := by omega
    have h2 : n - s = 0 := by omega
    have h3 : (n - 1) / s = 0 := Nat.div_eq_of_lt (by omega)
    have h4 : (0 + s - 1) / s = 0 := Nat.div_eq_of_lt (by omega)
    rw [h1, Nat.add_div_right _ (by omega), h2]
    omega
  · have h1 : n + s - 1 = (n - 1) + s := by omega
    have h2 : n - s + s - 1 = n - 1 := by omega
    rw [h1, Nat.add_div_right _ (by omega), h2]

theorem rangeStep_eq_cons (n s : ℕ) (hs : 1 ≤ s) (hn : 1 ≤ n) :
    rangeStep n s = 0 :: (rangeStep (n - s) s).map (· + s) := by
  unfold rangeStep
  rw [ceil_div_rec s n hs hn, List.range_succ_eq_map]
  simp only [List.map_cons, List.map_map, Nat.zero_mul]
  refine congrArg _ (List.map_congr_left fun j _ => ?_)
  simp [Function.comp, Nat.succ_mul]

theorem chunk_data_cons_step {α : Type} (l : List α) (s : Nat) (hs : 1 ≤ s)
    (hl : l ≠ []) :
    chunk_data l s = l.take s :: chunk_data (l.drop s) s := by
  have hn : 1 ≤ l.length := by
    cases l with
    | nil => exact absurd rfl hl
    | cons x xs => simp
  unfold chunk_data
  rw [rangeStep_eq_cons _ _ hs hn]
  simp only [List.map_cons, List.map_map, List.drop_zero, List.length_drop]
  refine congrArg _ (List.map_congr_left fun j _ => ?_)
  simp [Function.comp, List.drop_drop, Nat.add_comm]

theorem chunk_data_eq_chunkRec {α : Type} (s : Nat) (hs : 1 ≤ s) :
    ∀ l : List α, chunk_data l s = chunkRec s l := by
  have key : ∀ n (l : List α), l.length = n → chunk_data l s = chunkRec s l := by
    intro n
    induction n using Nat.strong_induction_on with
    | _ n ih => ?_
    intro l hn
    cases l with
    | nil => simp [chunk_data, chunkRec, rangeStep, Nat.div_eq_of_lt (by omega : s - 1 < s)]
    | cons x xs =>
      rw [chunk_data_cons_step _ s hs (by simp), chunkRec]
      have hdrop : xs.drop (s - 1) = (x :: xs).drop s := by
        cases s with
        | zero => omega
        | succ m => simp
      rw [← hdrop]
      refine congrArg _ (ih (xs.drop (s - 1)).length ?_ _ rfl)
      subst hn
      simp only [List.length_drop, List.length_cons]
      omega
  exact fun l => key l.length l rfl

theorem chunkRec_join {α : Type} (s : Nat) (hs : 1 ≤ s) :
    ∀ l : List α, (chunkRec s l).flatten = l := by
  have key : ∀ n (l : List α), l.length = n → (chunkRec s l).flatten = l := by
    intro n
    induction n using Nat.strong_induction_on with
    | _ n ih => ?_
    intro l hn
    cases l with
    | nil => simp [chunkRec]
    | cons x xs =>
      rw [chunkRec, List.flatten_cons]
      have hdrop : xs.drop (s - 1) = (x :: xs).drop s := by
        cases s with
        | zero => omega
        | succ m => simp
      rw [hdrop, ih ((x :: xs).drop s).length (by subst hn; simp; omega) _ rfl,
        List.take_append_drop]
  exact fun l => key l.length l rfl

theorem chunkRec_dropLast_length {α : Type} (s : Nat) (hs : 1 ≤ s) :
    ∀ l : List α, ∀ c ∈ (chunkRec s l).dropLast, c.length = s := by
  have key : ∀ n (l : List α), l.length = n → ∀ c ∈ (chunkRec s l).dropLast, c.length = s := by
    intro n
    induction n using Nat.strong_induction_on with
    | _ n ih => ?_
    intro l hn
    cases l with
    | nil => simp [chunkRec]
    | cons x xs =>
      rw [chunkRec]
      cases htl : chunkRec s (xs.drop (s - 1)) with
      | nil => simp
      | cons c cs =>
        rw [← htl]
        have hne : chunkRec s (xs.drop (s - 1)) ≠ [] := by rw [htl]; simp
        have hd : xs.drop (s - 1) ≠ [] := by
          intro hcon
          rw [hcon, chunkRec] at hne
          exact hne rfl
        have hlen : s < (x :: xs).length := by
          have := List.length_drop (s - 1) xs
          by_contra hcon
          push_neg at hcon
          simp at hcon
          have : xs.drop (s - 1) = [] := List.drop_eq_nil_of_le (by omega)
          exact hd this
        intro e he
        rw [List.dropLast_cons_of_ne_nil hne] at he
        rcases List.mem_cons.mp he with h | h
        · rw [h, List.length_take]
          omega
        · have hdrop : xs.drop (s - 1) = (x :: xs).drop s := by
            cases s with
            | zero => omega
            | succ m => simp
          refine ih ((x :: xs).drop s).length ?_ _ rfl e (by rw [← hdrop]; exact h)
          subst hn
          simp only [List.length_drop, List.length_cons]
          omega
  exact fun l => key l.length l rfl

theorem chunkRec_ne_nil {α : Type} (s : Nat) (hs : 1 ≤ s) :
    ∀ l : List α, ∀ c ∈ chunkRec s l, c ≠ [] := by
  have key : ∀ n (l : List α), l.length = n → ∀ c ∈ chunkRec s l, c ≠ [] := by
    intro n
    induction n using Nat.strong_induction_on with
    | _ n ih => ?_
    intro l hn
    cases l with
    | nil => simp [chunkRec]
    | cons x xs =>
      rw [chunkRec]
      intro c hc
      rcases List.mem_cons.mp hc with h | h
      · subst h
        cases hs' : s with
        | zero => omega
        | succ m => simp [List.take_succ_cons]
      · exact ih (xs.drop (s - 1)).length
          (by subst hn; simp only [List.length_drop, List.length_cons]; omega) _ rfl c h
  exact fun l => key l.length l rfl

theorem chunk_data_length {α : Type} (l : List α) (s : Nat) :
    (chunk_data l s).length = (l.length + s - 1) / s := by
  simp [chunk_data, rangeStep]

theorem chunk_data_nil {α : Type} (s : Nat) (hs : 1 ≤ s) :
    chunk_data ([] : List α) s = [] := by
  simp [chunk_data, rangeStep, Nat.div_eq_of_lt (by omega : s - 1 < s)]

/-! ### Retry loop lemmas -/

theorem serializeBody_isSome_of_encodable (c : List Record)
    (h : (encode_chunk c).isSome) : (serializeBody (some c)).isSome := by
  cases c with
  | nil => simp [serializeBody]
  | cons r rs =>
    obtain ⟨js, hjs⟩ := Option.isSome_iff_exists.mp h
    simp [serializeBody, hjs]

theorem request_retry_loop_bounds (w : World) (body : Option (List Record))
    (method : String) : ∀ fuel k,
    (request_retry_loop w body method fuel k).tries ≤ fuel ∧
    (request_retry_loop w body method fuel k).attempts.length ≤ fuel := by
  intro fuel
  induction fuel with
  | zero => intro k; simp [request_retry_loop]
  | succ n ih =>
    intro k
    simp only [request_retry_loop]
    split
    · split
      · simp
      · have := ih (k + 1)
        refine ⟨?_, ?_⟩ <;> simp <;> omega
    · have := ih k
      refine ⟨?_, ?_⟩ <;> simp <;> omega

theorem request_retry_loop_exhaust (w : World) (body : Option (List Record))
    (method : String) :
    ∀ fuel k, (∀ j, j < fuel → statusOk (w (k + j)) = false) →
    (request_retry_loop w body method fuel k).ok = false := by
  intro fuel
  induction fuel with
  | zero => intro k _; simp [request_retry_loop]
  | succ n ih =>
    intro k hall
    by_cases hcall : ((method = "DELETE" : Bool) || (serializeBody body).isSome) = true
    · have h0 : statusOk (w k) = false := by
        have := hall 0 (by omega)
        simpa using this
      simp only [request_retry_loop, hcall, if_true, h0, if_false]
      simp only [Bool.false_eq_true, if_false]
      have := ih (k + 1) (fun j hj => by
        have := hall (j + 1) (by omega)
        simpa [Nat.add_assoc, Nat.add_comm 1 j] using this)
      simpa using this
    · have hcall' : ((method = "DELETE" : Bool) || (serializeBody body).isSome) = false := by
        simpa using hcall
      simp only [request_retry_loop, hcall']
      simp only [Bool.false_eq_true, if_false]
      have := ih k (fun j hj => hall j (by omega))
      simpa using this

theorem request_retry_loop_bad_serialization (w : World) (c : List Record)
    (hne : c ≠ []) (hbad : encode_chunk c = none) :
    ∀ fuel k, request_retry_loop w (some c) "POST" fuel k = ⟨false, none, fuel, [], k⟩ := by
  have hser : (serializeBody (some c)).isSome = false := by
    cases c with
    | nil => exact absurd rfl hne
    | cons r rs => simp [serializeBody, hbad]
  intro fuel
  induction fuel with
  | zero => intro k; simp [request_retry_loop]
  | succ n ih =>
    intro k
    have hcall : (("POST" = "DELETE" : Bool) || (serializeBody (some c)).isSome) = false := by
      simp [hser]
    simp only [request_retry_loop, hcall]
    simp only [Bool.false_eq_true, if_false, ih k]

/-! ### Clear-phase trace lemmas -/

theorem fail_shape_cons {ev : OpEv} {ops : List OpEv} (hev : ev.ok = true)
    (h : ∃ pre last, ops = pre ++ [last] ∧ (∀ op ∈ pre, op.ok = true) ∧ last.ok = false) :
    ∃ pre last, ev :: ops = pre ++ [last] ∧ (∀ op ∈ pre, op.ok = true) ∧ last.ok = false := by
  obtain ⟨pre, last, hsplit, hpre, hlast⟩ := h
  refine ⟨ev :: pre, last, by simp [hsplit], ?_, hlast⟩
  intro op hop
  rcases List.mem_cons.mp hop with h1 | h1
  · subst h1; exact hev
  · exact hpre op h1

theorem runClear_all_ok (base : String) (data : DataMap) (w : World) :
    ∀ ts k, (runClear base data w ts k).ok = true →
    ∀ op ∈ (runClear base data w ts k).ops, op.ok = true := by
  intro ts
  induction ts with
  | nil => intro k _ op hop; simp [runClear] at hop
  | cons t rest ih =>
    intro k
    cases hl : List.lookup t data with
    | none => simp only [runClear, hl]; exact ih k
    | some l =>
      simp only [runClear, hl]
      by_cases he : l.isEmpty = true
      · rw [if_pos he]; exact ih k
      · rw [if_neg he]
        by_cases hro : (make_request_with_retry w none "DELETE" 3 k).ok = true
        · rw [if_pos hro]
          intro hok op hop
          rcases List.mem_cons.mp hop with h | h
          · subst h; exact hro
          · exact ih _ hok op h
        · rw [if_neg hro]
          intro hok
          exact absurd hok (by simp)

theorem runClear_fail_shape (base : String) (data : DataMap) (w : World) :
    ∀ ts k, (runClear base data w ts k).ok = false →
    ∃ pre last, (runClear base data w ts k).ops = pre ++ [last] ∧
      (∀ op ∈ pre, op.ok = true) ∧ last.ok = false := by
  intro ts
  induction ts with
  | nil => intro k h; simp [runClear] at h
  | cons t rest ih =>
    intro k
    cases hl : List.lookup t data with
    | none => simp only [runClear, hl]; exact ih k
    | some l =>
      simp only [runClear, hl]
      by_cases he : l.isEmpty = true
      · rw [if_pos he]; exact ih k
      · rw [if_neg he]
        by_cases hro : (make_request_with_retry w none "DELETE" 3 k).ok = true
        · rw [if_pos hro]
          intro hok
          exact fail_shape_cons hro (ih _ hok)
        · rw [if_neg hro]
          intro _
          have hro' : (make_request_with_retry w none "DELETE" 3 k).ok = false := by
            simpa using hro
          exact ⟨[], ⟨"DELETE", base ++ (endpoints t).1,
            (make_request_with_retry w none "DELETE" 3 k).ok,
            (make_request_with_retry w none "DELETE" 3 k).tries,
            (make_request_with_retry w none "DELETE" 3 k).attempts⟩, by simp, by simp, hro'⟩

theorem runClear_ops_method (base : String) (data : DataMap) (w : World) :
    ∀ ts k, ∀ op ∈ (runClear base data w ts k).ops, op.method = "DELETE" := by
  intro ts
  induction ts with
  | nil => intro k op hop; simp [runClear] at hop
  | cons t rest ih =>
    intro k
    cases hl : List.lookup t data with
    | none => simp only [runClear, hl]; exact ih k
    | some l =>
      simp only [runClear, hl]
      by_cases he : l.isEmpty = true
      · rw [if_pos he]; exact ih k
      · rw [if_neg he]
        by_cases hro : (make_request_with_retry w none "DELETE" 3 k).ok = true
        · rw [if_pos hro]
          intro op hop
          rcases List.mem_cons.mp hop with h | h
          · subst h; rfl
          · exact ih _ op h
        · rw [if_neg hro]
          intro op hop
          rcases List.mem_cons.mp hop with h | h
          · subst h; rfl
          · simp at h

theorem runClear_complete (base : String) (data : DataMap) (w : World) :
    ∀ ts k, (runClear base data w ts k).ok = true →
    ∀ t ∈ ts, ∀ l, List.lookup t data = some l → l.isEmpty = false →
    ∃ op ∈ (runClear base data w ts k).ops,
      op.method = "DELETE" ∧ op.url = base ++ (endpoints t).1 ∧ op.ok = true := by
  intro ts
  induction ts with
  | nil => intro k _ t ht; simp at ht
  | cons t0 rest ih =>
    intro k
    cases hl : List.lookup t0 data with
    | none =>
      simp only [runClear, hl]
      intro hok t ht l hlt hle
      rcases List.mem_cons.mp ht with h | h
      · subst h; rw [hl] at hlt; exact absurd hlt (by simp)
      · exact ih k hok t h l hlt hle
    | some l0 =>
      simp only [runClear, hl]
      by_cases he : l0.isEmpty = true
      · rw [if_pos he]
        intro hok t ht l hlt hle
        rcases List.mem_cons.mp ht with h | h
        · subst h; rw [hl] at hlt
          injection hlt with hleq
          subst hleq
          rw [he] at hle
          exact absurd hle (by simp)
        · exact ih k hok t h l hlt hle
      · rw [if_neg he]
        by_cases hro : (make_request_with_retry w none "DELETE" 3 k).ok = true
        · rw [if_pos hro]
          intro hok t ht l hlt hle
          rcases List.mem_cons.mp ht with h | h
          · subst h
            refine ⟨⟨"DELETE", base ++ (endpoints t).1,
              (make_request_with_retry w none "DELETE" 3 k).ok,
              (make_request_with_retry w none "DELETE" 3 k).tries,
              (make_request_with_retry w none "DELETE" 3 k).attempts⟩,
              List.mem_cons_self _ _, rfl, rfl, hro⟩
          · obtain ⟨op, hmem, hprops⟩ := ih _ hok t h l hlt hle
            exact ⟨op, List.mem_cons_of_mem _ hmem, hprops⟩
        · rw [if_neg hro]
          intro hok
          exact absurd hok (by simp)

/-! ### Upload-phase trace lemmas -/

theorem fail_shape_append {pref ops : List OpEv}
    (hpref : ∀ op ∈ pref, op.ok = true)
    (h : ∃ pre last, ops = pre ++ [last] ∧ (∀ op ∈ pre, op.ok = true) ∧ last.ok = false) :
    ∃ pre last, pref ++ ops = pre ++ [last] ∧
      (∀ op ∈ pre, op.ok = true) ∧ last.ok = false := by
  obtain ⟨pre, last, hsplit, hpre, hlast⟩ := h
  refine ⟨pref ++ pre, last, by simp [hsplit], ?_, hlast⟩
  intro op hop
  rcases List.mem_append.mp hop with h1 | h1
  · exact hpref op h1
  · exact hpre op h1

theorem runUploadChunks_all_ok (base t : String) (w : World) :
    ∀ cs k, (runUploadChunks base t w cs k).ok = true →
    ∀ op ∈ (runUploadChunks base t w cs k).ops, op.ok = true := by
  intro cs
  induction cs with
  | nil => intro k _ op hop; simp [runUploadChunks] at hop
  | cons c rest ih =>
    intro k
    simp only [runUploadChunks]
    by_cases hro : (make_request_with_retry w (some c) "POST" 3 k).ok = true
    · rw [if_pos hro]
      intro hok op hop
      rcases List.mem_cons.mp hop with h | h
      · subst h; exact hro
      · exact ih _ hok op h
    · rw [if_neg hro]
      intro hok
      exact absurd hok (by simp)

theorem runUploadChunks_fail_shape (base t : String) (w : World) :
    ∀ cs k, (runUploadChunks base t w cs k).ok = false →
    ∃ pre last, (runUploadChunks base t w cs k).ops = pre ++ [last] ∧
      (∀ op ∈ pre, op.ok = true) ∧ last.ok = false := by
  intro cs
  induction cs with
  | nil => intro k h; simp [runUploadChunks] at h
  | cons c rest ih =>
    intro k
    simp only [runUploadChunks]
    by_cases hro : (make_request_with_retry w (some c) "POST" 3 k).ok = true
    · rw [if_pos hro]
      intro hok
      exact fail_shape_cons hro (ih _ hok)
    · rw [if_neg hro]
      intro _
      have hro' : (make_request_with_retry w (some c) "POST" 3 k).ok = false := by
        simpa using hro
      exact ⟨[], ⟨"POST", base ++ (endpoints t).2,
        (make_request_with_retry w (some c) "POST" 3 k).ok,
        (make_request_with_retry w (some c) "POST" 3 k).tries,
        (make_request_with_retry w (some c) "POST" 3 k).attempts⟩, by simp, by simp, hro'⟩

theorem runUploadChunks_ops (base t : String) (w : World) :
    ∀ cs k, ∀ op ∈ (runUploadChunks base t w cs k).ops,
    op.method = "POST" ∧ op.url = base ++ (endpoints t).2 := by
  intro cs
  induction cs with
  | nil => intro k op hop; simp [runUploadChunks] at hop
  | cons c rest ih =>
    intro k
    simp only [runUploadChunks]
    by_cases hro : (make_request_with_retry w (some c) "POST" 3 k).ok = true
    · rw [if_pos hro]
      intro op hop
      rcases List.mem_cons.mp hop with h | h
      · subst h; exact ⟨rfl, rfl⟩
      · exact ih _ op h
    · rw [if_neg hro]
      intro op hop
      rcases List.mem_cons.mp hop with h | h
      · subst h; exact ⟨rfl, rfl⟩
      · simp at h

theorem runUploadChunks_serializable (base t : String) (w : World) :
    ∀ cs k, (runUploadChunks base t w cs k).ok = true →
    ∀ c ∈ cs, c ≠ [] → encode_chunk c ≠ none := by
  intro cs
  induction cs with
  | nil => intro k _ c hc; simp at hc
  | cons c0 rest ih =>
    intro k
    simp only [runUploadChunks]
    by_cases hro : (make_request_with_retry w (some c0) "POST" 3 k).ok = true
    · rw [if_pos hro]
      intro hok c hc hne hbad
      rcases List.mem_cons.mp hc with h | h
      · subst h
        have := request_retry_loop_bad_serialization w c hne hbad 3 k
        rw [show make_request_with_retry w (some c) "POST" 3 k =
          request_retry_loop w (some c) "POST" 3 k from rfl, this] at hro
        simp at hro
      · exact ih _ hok c h hne hbad
    · rw [if_neg hro]
      intro hok
      exact absurd hok (by simp)

theorem runUpload_all_ok (base : String) (data : DataMap) (w : World) :
    ∀ ts k, (runUpload base data w ts k).ok = true →
    ∀ op ∈ (runUpload base data w ts k).ops, op.ok = true := by
  intro ts
  induction ts with
  | nil => intro k _ op hop; simp [runUpload] at hop
  | cons t rest ih =>
    intro k
    cases hl : List.lookup t data with
    | none => simp only [runUpload, hl]; exact ih k
    | some l =>
      simp only [runUpload, hl]
      by_cases he : l.isEmpty = true
      · rw [if_pos he]; exact ih k
      · rw [if_neg he]
        by_cases hu : (runUploadChunks base t w (chunk_data l 500) k).ok = true
        · rw [if_pos hu]
          intro hok op hop
          rcases List.mem_append.mp hop with h | h
          · exact runUploadChunks_all_ok base t w _ k hu op h
          · exact ih _ hok op h
        · rw [if_neg hu]
          intro hok
          exact absurd hok (by simp)

theorem runUpload_fail_shape (base : String) (data : DataMap) (w : World) :
    ∀ ts k, (runUpload base data w ts k).ok = false →
    ∃ pre last, (runUpload base data w ts k).ops = pre ++ [last] ∧
      (∀ op ∈ pre, op.ok = true) ∧ last.ok = false := by
  intro ts
  induction ts with
  | nil => intro k h; simp [runUpload] at h
  | cons t rest ih =>
    intro k
    cases hl : List.lookup t data with
    | none => simp only [runUpload, hl]; exact ih k
    | some l =>
      simp only [runUpload, hl]
      by_cases he : l.isEmpty = true
      · rw [if_pos he]; exact ih k
      · rw [if_neg he]
        by_cases hu : (runUploadChunks base t w (chunk_data l 500) k).ok = true
        · rw [if_pos hu]
          intro hok
          exact fail_shape_append (runUploadChunks_all_ok base t w _ k hu) (ih _ hok)
        · rw [if_neg hu]
          intro _
          have hu' : (runUploadChunks base t w (chunk_data l 500) k).ok = false := by
            simpa using hu
          exact runUploadChunks_fail_shape base t w _ k hu'

theorem runUpload_ops (base : String) (data : DataMap) (w : World) :
    ∀ ts k, ∀ op ∈ (runUpload base data w ts k).ops,
    op.method = "POST" ∧ ∃ t ∈ ts, op.url = base ++ (endpoints t).2 ∧
      ∃ l, List.lookup t data = some l ∧ l.isEmpty = false := by
  intro ts
  induction ts with
  | nil => intro k op hop; simp [runUpload] at hop
  | cons t rest ih =>
    intro k
    cases hl : List.lookup t data with
    | none =>
      simp only [runUpload, hl]
      intro op hop
      obtain ⟨hm, t', ht', hrest⟩ := ih k op hop
      exact ⟨hm, t', List.mem_cons_of_mem _ ht', hrest⟩
    | some l =>
      simp only [runUpload, hl]
      by_cases he : l.isEmpty = true
      · rw [if_pos he]
        intro op hop
        obtain ⟨hm, t', ht', hrest⟩ := ih k op hop
        exact ⟨hm, t', List.mem_cons_of_mem _ ht', hrest⟩
      · rw [if_neg he]
        have he' : l.isEmpty = false := by simpa using he
        by_cases hu : (runUploadChunks base t w (chunk_data l 500) k).ok = true
        · rw [if_pos hu]
          intro op hop
          rcases List.mem_append.mp hop with h | h
          · obtain ⟨hm, hurl⟩ := runUploadChunks_ops base t w _ k op h
            exact ⟨hm, t, List.mem_cons_self _ _, hurl, l, hl, he'⟩
          · obtain ⟨hm, t', ht', hrest⟩ := ih _ op h
            exact ⟨hm, t', List.mem_cons_of_mem _ ht', hrest⟩
        · rw [if_neg hu]
          intro op hop
          obtain ⟨hm, hurl⟩ := runUploadChunks_ops base t w _ k op hop
          exact ⟨hm, t, List.mem_cons_self _ _, hurl, l, hl, he'⟩

theorem runUpload_serializable (base : String) (data : DataMap) (w : World) :
    ∀ ts k, (runUpload base data w ts k).ok = true →
    ∀ t ∈ ts, ∀ l, List.lookup t data = some l →
    ∀ c ∈ chunk_data l 500, encode_chunk c ≠ none := by
  intro ts
  induction ts with
  | nil => intro k _ t ht; simp at ht
  | cons t0 rest ih =>
    intro k
    cases hl : List.lookup t0 data with
    | none =>
      simp only [runUpload, hl]
      intro hok t ht l hlt
      rcases List.mem_cons.mp ht with h | h
      · subst h; rw [hl] at hlt; exact absurd hlt (by simp)
      · exact ih k hok t h l hlt
    | some l0 =>
      simp only [runUpload, hl]
      by_cases he : l0.isEmpty = true
      · rw [if_pos he]
        intro hok t ht l hlt
        rcases List.mem_cons.mp ht with h | h
        · subst h; rw [hl] at hlt
          injection hlt with hleq
          subst hleq
          intro c hc
          rw [List.isEmpty_iff.mp he, chunk_data_nil 500 (by omega)] at hc
          simp at hc
        · exact ih k hok t h l hlt
      · rw [if_neg he]
        by_cases hu : (runUploadChunks base t0 w (chunk_data l0 500) k).ok = true
        · rw [if_pos hu]
          intro hok t ht l hlt
          rcases List.mem_cons.mp ht with h | h
          · subst h; rw [hl] at hlt
            injection hlt with hleq
            subst hleq
            intro c hc
            exact runUploadChunks_serializable base t w _ k hu c hc
              (chunkRec_ne_nil 500 (by omega) l0 c
                (by rw [← chunk_data_eq_chunkRec 500 (by omega) l0]; exact hc))
          · exact ih _ hok t h l hlt
        · rw [if_neg hu]
          intro hok
          exact absurd hok (by simp)

/-! ### Single-step retry lemmas -/

theorem request_retry_loop_step_success (w : World) (body : Option (List Record))
    (method : String) (fuel k : Nat)
    (hcall : ((method = "DELETE" : Bool) || (serializeBody body).isSome) = true)
    (hs : statusOk (w k) = true) :
    request_retry_loop w body method (fuel + 1) k = ⟨true, some (w k), 1, [w k], k + 1⟩ := by
  simp only [request_retry_loop, hcall, if_true, hs]

theorem request_retry_loop_step_fail (w : World) (body : Option (List Record))
    (method : String) (fuel k : Nat)
    (hcall : ((method = "DELETE" : Bool) || (serializeBody body).isSome) = true)
    (hf : statusOk (w k) = false) :
    request_retry_loop w body method (fuel + 1) k =
      ⟨(request_retry_loop w body method fuel (k + 1)).ok,
       (request_retry_loop w body method fuel (k + 1)).resp,
       (request_retry_loop w body method fuel (k + 1)).tries + 1,
       w k :: (request_retry_loop w body method fuel (k + 1)).attempts,
       (request_retry_loop w body method fuel (k + 1)).next⟩ := by
  simp only [request_retry_loop, hcall, if_true, hf, Bool.false_eq_true, if_false]

/-! ### Composition lemmas for the whole run -/

theorem run_all_ok (base : String) (data : DataMap) (w : World) :
    (clear_and_upload_data base data w).ok = true →
    ∀ op ∈ (clear_and_upload_data base data w).ops, op.ok = true := by
  unfold clear_and_upload_data
  by_cases hc : (runClear base data w table_names 0).ok = true
  · rw [if_pos hc]
    intro hok op hop
    rcases List.mem_append.mp hop with h | h
    · exact runClear_all_ok base data w table_names 0 hc op h
    · exact runUpload_all_ok base data w table_names _ hok op h
  · rw [if_neg hc]
    intro hok
    exact absurd hok hc

theorem run_fail_shape (base : String) (data : DataMap) (w : World) :
    (clear_and_upload_data base data w).ok = false →
    ∃ pre last, (clear_and_upload_data base data w).ops = pre ++ [last] ∧
      (∀ op ∈ pre, op.ok = true) ∧ last.ok = false := by
  unfold clear_and_upload_data
  by_cases hc : (runClear base data w table_names 0).ok = true
  · rw [if_pos hc]
    intro hok
    exact fail_shape_append (runClear_all_ok base data w table_names 0 hc)
      (runUpload_fail_shape base data w table_names _ hok)
  · rw [if_neg hc]
    intro hok
    exact runClear_fail_shape base data w table_names 0 hok

/-! ### String and endpoint facts -/

theorem append_cancel_left_str {a b c : String} (h : a ++ b = a ++ c) : b = c := by
  have h1 : a.data ++ b.data = a.data ++ c.data := congrArg String.data h
  have h2 : b.data = c.data := List.append_cancel_left h1
  cases b
  cases c
  exact congrArg String.mk h2

theorem endpoints_chunk_inj :
    ∀ a ∈ table_names, ∀ b ∈ table_names,
      (endpoints a).2 = (endpoints b).2 → a = b := by decide

theorem isEmpty_false_of_ne_nil {l : List Record} (h : l ≠ []) : l.isEmpty = false := by
  cases l with
  | nil => exact absurd rfl h
  | cons x xs => rfl

/-! ### Claim theorems -/

/-- C3: for every record list R of length N and every chunk size S ≥ 1,
`chunk_data` produces exactly ceil(N/S) chunks (written (N + S - 1) / S in
natural-number division), whose in-order concatenation equals R, every chunk
except possibly the last has length exactly S, and an empty R produces zero
chunks. -/
theorem chunk_partition_c3 {α : Type} (l : List α) (s : Nat) (hs : 1 ≤ s) :
    (chunk_data l s).length = (l.length + s - 1) / s ∧
    (chunk_data l s).flatten = l ∧
    (∀ c ∈ (chunk_data l s).dropLast, c.length = s) ∧
    chunk_data ([] : List α) s = [] := by
  refine ⟨chunk_data_length l s, ?_, ?_, chunk_data_nil s hs⟩
  · rw [chunk_data_eq_chunkRec s hs l]
    exact chunkRec_join s hs l
  · rw [chunk_data_eq_chunkRec s hs l]
    exact chunkRec_dropLast_length s hs l

theorem chunk_partition_c3_witness :
    (chunk_data [1, 2, 3, 4, 5] 2).length = (5 + 2 - 1) / 2 ∧
    (chunk_data [1, 2, 3, 4, 5] 2).flatten = [1, 2, 3, 4, 5] ∧
    (∀ c ∈ (chunk_data [1, 2, 3, 4, 5] 2).dropLast, c.length = 2) ∧
    chunk_data ([] : List Nat) 2 = [] :=
  chunk_partition_c3 [1, 2, 3, 4, 5] 2 (by decide)

/-- C5: an upload whose transport fails on the first two attempts and
returns 200 on the third makes exactly 3 attempts and succeeds; in general
at most `retries` loop iterations and HTTP attempts are ever made, and for
every request — with or without a chunk body — a transport that fails
throughout the window yields overall failure once the retries are
exhausted. -/
theorem retry_semantics_c5 :
    (∀ (w : World) (k : Nat) (c : List Record), c ≠ [] → (encode_chunk c).isSome →
      statusOk (w k) = false → statusOk (w (k + 1)) = false → w (k + 2) = .status 200 →
      make_request_with_retry w (some c) "POST" 3 k =
        ⟨true, some (.status 200), 3, [w k, w (k + 1), .status 200], k + 3⟩) ∧
    (∀ (w : World) (body : Option (List Record)) (method : String) (retries k : Nat),
      (make_request_with_retry w body method retries k).tries ≤ retries ∧
      (make_request_with_retry w body method retries k).attempts.length ≤ retries) ∧
    (∀ (w : World) (body : Option (List Record)) (method : String) (retries k : Nat),
      (∀ j, j < retries → statusOk (w (k + j)) = false) →
      (make_request_with_retry w body method retries k).ok = false) := by
  refine ⟨?_, fun w body method retries k => request_retry_loop_bounds w body method retries k,
    fun w body method retries k h => request_retry_loop_exhaust w body method retries k h⟩
  intro w k c hne hsome h0 h1 h2
  have hcall : (("POST" = "DELETE" : Bool) || (serializeBody (some c)).isSome) = true := by
    simp [serializeBody_isSome_of_encodable c hsome]
  show request_retry_loop w (some c) "POST" 3 k = _
  rw [show (3 : Nat) = 2 + 1 from rfl,
    request_retry_loop_step_fail w (some c) "POST" 2 k hcall h0,
    show (2 : Nat) = 1 + 1 from rfl,
    request_retry_loop_step_fail w (some c) "POST" 1 (k + 1) hcall h1,
    request_retry_loop_step_success w (some c) "POST" 0 (k + 1 + 1) hcall
      (by rw [show k + 1 + 1 = k + 2 from rfl, h2]; rfl)]
  rw [show k + 1 + 1 = k + 2 from rfl, h2]

theorem retry_semantics_c5_witness :
    make_request_with_retry (fun n => if n < 2 then .status 503 else .status 200)
      (some [[("price", .pdecimal (1999/100))]]) "POST" 3 0 =
      ⟨true, some (.status 200), 3,
       [.status 503, .status 503, .status 200], 3⟩ ∧
    (make_request_with_retry wAllExc (some [r0]) "POST" 3 0).ok = false := by
  constructor
  · have h := retry_semantics_c5.1 (fun n => if n < 2 then .status 503 else .status 200)
      0 [[("price", .pdecimal (1999/100))]]
      (by decide) (by rw [show encode_chunk [[("price", .pdecimal (1999/100))]] =
        some [.jobj [("price", .jnum (nearestDouble (1999/100)))]] from rfl]; rfl)
      (by rfl) (by rfl) (by rfl)
    simpa using h
  · exact retry_semantics_c5.2.2 wAllExc (some [r0]) "POST" 3 0 (fun j hj => rfl)

/-- C10: a chunk containing a value that is neither JSON-native nor a
`Decimal` makes `json.dumps` raise inside the retry loop's `try` on every
attempt, so the deterministic encoding error is retried the full 3
configured iterations like a transport failure, no HTTP call is made,
`make_request_with_retry` returns failure with no response object, and a run
that returned success can contain no such chunk (so the run is marked
failed). -/
theorem unserializable_chunk_retry_c10 :
    (∀ (w : World) (c : List Record) (k : Nat), c ≠ [] → encode_chunk c = none →
      make_request_with_retry w (some c) "POST" 3 k = ⟨false, none, 3, [], k⟩) ∧
    (∀ (base : String) (data : DataMap) (w : World),
      (clear_and_upload_data base data w).ok = true →
      ∀ t ∈ table_names, ∀ l, List.lookup t data = some l →
      ∀ c ∈ chunk_data l 500, encode_chunk c ≠ none) := by
  constructor
  · intro w c k hne hbad
    exact request_retry_loop_bad_serialization w c hne hbad 3 k
  · intro base data w hok t ht l hl c hc
    unfold clear_and_upload_data at hok
    by_cases hc0 : (runClear base data w table_names 0).ok = true
    · rw [if_pos hc0] at hok
      exact runUpload_serializable base data w table_names _ hok t ht l hl c hc
    · rw [if_neg hc0] at hok
      exact absurd hok hc0

theorem unserializable_chunk_retry_c10_witness :
    make_request_with_retry wAllExc (some [[("d", .pdate 2024 1 1)]]) "POST" 3 0 =
      ⟨false, none, 3, [], 0⟩ :=
  unserializable_chunk_retry_c10.1 wAllExc [[("d", .pdate 2024 1 1)]] 0
    (by decide) (by rfl)

/-- C4 (counterexample): the code treats only statuses 200 and 204 as
success, not the whole 2xx class. Status 201 lies in 200–299, yet a DELETE
attempt receiving 201 on its single configured attempt is recorded as a
failed attempt and the call returns failure. -/
theorem success_statuses_c4_counterexample :
    make_request_with_retry (fun _ => .status 201) none "DELETE" 1 0 =
      ⟨false, none, 1, [.status 201], 1⟩ ∧
    200 ≤ 201 ∧ 201 ≤ 299 ∧ statusOk (.status 201) = false := by
  refine ⟨by decide, by omega, by omega, by decide⟩

/-- C4 (amended): an attempt is treated as success exactly when its response
status is 200 or 204 (`status_code in [200, 204]`); every other status —
including other 2xx statuses such as 201 — and every transport error counts
as one failed attempt, after which the loop retries. -/
theorem success_statuses_c4_amended :
    (∀ o : HttpOutcome, statusOk o = true ↔ (o = .status 200 ∨ o = .status 204)) ∧
    (∀ c : Nat, 200 ≤ c → c ≤ 299 → c ≠ 200 → c ≠ 204 → statusOk (.status c) = false) ∧
    (∀ (w : World) (body : Option (List Record)) (method : String) (fuel k : Nat),
      ((method = "DELETE" : Bool) || (serializeBody body).isSome) = true →
      (statusOk (w k) = true →
        request_retry_loop w body method (fuel + 1) k = ⟨true, some (w k), 1, [w k], k + 1⟩) ∧
      (statusOk (w k) = false →
        request_retry_loop w body method (fuel + 1) k =
          ⟨(request_retry_loop w body method fuel (k + 1)).ok,
           (request_retry_loop w body method fuel (k + 1)).resp,
           (request_retry_loop w body method fuel (k + 1)).tries + 1,
           w k :: (request_retry_loop w body method fuel (k + 1)).attempts,
           (request_retry_loop w body method fuel (k + 1)).next⟩)) := by
  refine ⟨?_, ?_, ?_⟩
  · intro o
    cases o with
    | status c =>
      simp only [statusOk, Bool.or_eq_true, decide_eq_true_eq]
      constructor
      · rintro (h | h)
        · exact Or.inl (by rw [h])
        · exact Or.inr (by rw [h])
      · rintro (h | h)
        · exact Or.inl (by injection h)
        · exact Or.inr (by injection h)
    | exc => simp [statusOk]
  · intro c _ _ h200 h204
    simp [statusOk, h200, h204]
  · intro w body method fuel k hcall
    exact ⟨fun hs => request_retry_loop_step_success w body method fuel k hcall hs,
      fun hf => request_retry_loop_step_fail w body method fuel k hcall hf⟩

theorem success_statuses_c4_amended_witness :
    (statusOk (.status 204) = true ↔
      (HttpOutcome.status 204 = .status 200 ∨ HttpOutcome.status 204 = .status 204)) ∧
    statusOk (.status 202) = false ∧
    request_retry_loop (fun _ => .status 202) none "DELETE" 1 0 =
      ⟨(request_retry_loop (fun _ => .status 202) none "DELETE" 0 1).ok,
       (request_retry_loop (fun _ => .status 202) none "DELETE" 0 1).resp,
       (request_retry_loop (fun _ => .status 202) none "DELETE" 0 1).tries + 1,
       .status 202 :: (request_retry_loop (fun _ => .status 202) none "DELETE" 0 1).attempts,
       (request_retry_loop (fun _ => .status 202) none "DELETE" 0 1).next⟩ :=
  ⟨success_statuses_c4_amended.1 (.status 204),
   success_statuses_c4_amended.2.1 202 (by omega) (by omega) (by omega) (by omega),
   (success_statuses_c4_amended.2.2 (fun _ => .status 202) none "DELETE" 0 0
     (by decide)).2 (by decide)⟩

/-- C1: in every run, for every table with at least one local record, a
chunk-endpoint POST for that table appears in the trace only after an
earlier successful DELETE of that same table's clear endpoint. -/
theorem clear_precedes_upload_c1 (base : String) (data : DataMap) (w : World)
    (t : String) (ht : t ∈ table_names) (l : List Record)
    (hl : List.lookup t data = some l) (hne : l ≠ [])
    (i : Nat) (op : OpEv)
    (hop : (clear_and_upload_data base data w).ops.get? i = some op)
    (hm : op.method = "POST") (hu : op.url = base ++ (endpoints t).2) :
    ∃ j op', j < i ∧ (clear_and_upload_data base data w).ops.get? j = some op' ∧
      op'.method = "DELETE" ∧ op'.url = base ++ (endpoints t).1 ∧ op'.ok = true := by
  unfold clear_and_upload_data at hop ⊢
  by_cases hc : (runClear base data w table_names 0).ok = true
  · rw [if_pos hc] at hop ⊢
    by_cases hi : i < (runClear base data w table_names 0).ops.length
    · rw [List.get?_append hi] at hop
      have hdm := runClear_ops_method base data w table_names 0 op (List.get?_mem hop)
      rw [hm] at hdm
      exact absurd hdm (by decide)
    · push_neg at hi
      rw [List.get?_append_right hi] at hop
      have hopu := List.get?_mem hop
      obtain ⟨hmp, t', ht', hurl, l', hl', hle'⟩ :=
        runUpload_ops base data w table_names _ op hopu
      have htt : t' = t := by
        apply endpoints_chunk_inj t' ht' t ht
        apply append_cancel_left_str (a := base)
        rw [← hurl, ← hu]
      subst htt
      obtain ⟨op', hmem', hdm, hdu, hdo⟩ :=
        runClear_complete base data w table_names 0 hc t' ht l hl
          (isEmpty_false_of_ne_nil hne)
      obtain ⟨j, hj⟩ := List.get?_of_mem hmem'
      have hjlt : j < (runClear base data w table_names 0).ops.length :=
        (List.get?_eq_some.mp hj).1
      refine ⟨j, op', lt_of_lt_of_le hjlt hi, ?_, hdm, hdu, hdo⟩
      rw [List.get?_append hjlt]
      exact hj
  · rw [if_neg hc] at hop
    have hdm := runClear_ops_method base data w table_names 0 op (List.get?_mem hop)
    rw [hm] at hdm
    exact absurd hdm (by decide)

theorem clear_precedes_upload_c1_witness :
    ∃ j op', j < 1 ∧
      (clear_and_upload_data "b" [("products", [r0])] wAll200).ops.get? j = some op' ∧
      op'.method = "DELETE" ∧ op'.url = "b" ++ (endpoints "products").1 ∧ op'.ok = true :=
  clear_precedes_upload_c1 "b" [("products", [r0])] wAll200 "products" (by decide)
    [r0] (by decide) (by decide) 1
    ⟨"POST", "b/api/sync/products/chunk", true, 1, [.status 200]⟩
    (by decide) rfl rfl

/-- C2: after the first remote operation of a run that exhausts its retries,
no further operation of any kind appears in the trace (the failing operation
is the last one), the run returns failure, and `main` exits with code 1. -/
theorem abort_on_first_failure_c2 :
    (∀ (base : String) (data : DataMap) (w : World) (i : Nat) (op : OpEv),
      (clear_and_upload_data base data w).ops.get? i = some op →
      op.ok = false →
      (clear_and_upload_data base data w).ops.drop (i + 1) = [] ∧
      (clear_and_upload_data base data w).ok = false) ∧
    (∀ (base : String) (db : Database) (w : World),
      (clear_and_upload_data base (fetch_data db) w).ok = false →
      main_exit_code base db w = 1) := by
  constructor
  · intro base data w i op hop hfail
    by_cases hok : (clear_and_upload_data base data w).ok = true
    · have := run_all_ok base data w hok op (List.get?_mem hop)
      rw [hfail] at this
      exact absurd this (by decide)
    · have hok' : (clear_and_upload_data base data w).ok = false := by simpa using hok
      obtain ⟨pre, last, hsplit, hpre, hlast⟩ := run_fail_shape base data w hok'
      refine ⟨?_, hok'⟩
      have hilt : i < (clear_and_upload_data base data w).ops.length :=
        (List.get?_eq_some.mp hop).1
      have hipre : ¬ i < pre.length := by
        intro hcon
        rw [hsplit, List.get?_append hcon] at hop
        have := hpre op (List.get?_mem hop)
        rw [hfail] at this
        exact absurd this (by decide)
      push_neg at hipre
      have hlen : (clear_and_upload_data base data w).ops.length = pre.length + 1 := by
        rw [hsplit]
        simp
      have hieq : i = pre.length := by omega
      rw [hsplit, hieq]
      have : (pre ++ [last]).length = pre.length + 1 := by simp
      rw [show pre.length + 1 = (pre ++ [last]).length from this.symm]
      exact List.drop_length _
  · intro base db w h
    unfold main_exit_code
    rw [if_neg (by simp [h])]

theorem abort_on_first_failure_c2_witness :
    (clear_and_upload_data "b" [("products", [r0])] wAllExc).ops.drop 1 = [] ∧
    (clear_and_upload_data "b" [("products", [r0])] wAllExc).ok = false :=
  abort_on_first_failure_c2.1 "b" [("products", [r0])] wAllExc 0
    ⟨"DELETE", "b/api/clear/products", false, 3, [.exc, .exc, .exc]⟩
    (by decide) (by decide)

/-- C7 (code behaviour at the failing input): with every table's local
record set empty, `clear_and_upload_data` performs no HTTP operation at all
— in particular no clear request is issued for `products` even though the
remote side may hold stale rows — and still reports success. The spec states
the clear endpoint must be called even for an empty table, and itself flags
this skip as a latent bug of the source. -/
theorem empty_table_clear_skipped_c7 :
    clear_and_upload_data "b"
      [("products", []), ("batches", []), ("masters", []), ("users", [])] wAllExc =
      ⟨true, 0, []⟩ := by decide

/-! ### Dictionary lemmas for the users transform -/

theorem lookup_eq_none_of_not_mem_keys (k : String) :
    ∀ r : Record, k ∉ r.map Prod.fst → List.lookup k r = none := by
  intro r
  induction r with
  | nil => intro _; rfl
  | cons p rest ih =>
    intro h
    obtain ⟨a, b⟩ := p
    simp only [List.map_cons, List.mem_cons] at h
    push_neg at h
    obtain ⟨h1, h2⟩ := h
    have hbeq : (k == a) = false := beq_eq_false_iff_ne.mpr h1
    simp [List.lookup, hbeq, ih h2]

theorem lookup_popKey_self (k : String) :
    ∀ r : Record, (r.map Prod.fst).Nodup → List.lookup k (popKey k r) = none := by
  intro r
  induction r with
  | nil => intro _; rfl
  | cons p rest ih =>
    intro hnd
    obtain ⟨a, v⟩ := p
    rw [List.map_cons] at hnd
    obtain ⟨hnotin, hrest⟩ := List.nodup_cons.mp hnd
    simp only [popKey]
    by_cases hak : a = k
    · rw [if_pos hak]
      refine lookup_eq_none_of_not_mem_keys k rest ?_
      rw [← hak]
      exact hnotin
    · rw [if_neg hak]
      have hbeq : (k == a) = false := beq_eq_false_iff_ne.mpr (fun h => hak h.symm)
      simp only [List.lookup, hbeq]
      exact ih hrest

theorem lookup_setKey_ne (k k' : String) (v : PyVal) (hkk : k ≠ k') :
    ∀ r : Record, List.lookup k (setKey k' v r) = List.lookup k r := by
  intro r
  induction r with
  | nil =>
    have hbeq : (k == k') = false := beq_eq_false_iff_ne.mpr hkk
    simp [setKey, List.lookup, hbeq]
  | cons p rest ih =>
    obtain ⟨a, b⟩ := p
    simp only [setKey]
    by_cases hak' : a = k'
    · rw [if_pos hak']
      subst hak'
      have hbeq : (k == a) = false := beq_eq_false_iff_ne.mpr hkk
      simp [List.lookup, hbeq]
    · rw [if_neg hak']
      by_cases hka : k = a
      · subst hka
        simp [List.lookup]
      · have hbeq : (k == a) = false := beq_eq_false_iff_ne.mpr hka
        simp [List.lookup, hbeq, ih]

theorem transform_user_no_pass (r : Record)
    (h : List.lookup "pass" r = none) : transform_user r = r := by
  unfold transform_user
  rw [h]

/-- C8: the users-table transform (rename of field `pass` to `pass_field`)
is idempotent on every record with distinct field names (every Python dict
row satisfies this): applying it twice equals applying it once. -/
theorem transform_idempotent_c8 (r : Record) (hnd : (r.map Prod.fst).Nodup) :
    transform_user (transform_user r) = transform_user r := by
  cases hp : List.lookup "pass" r with
  | none => rw [transform_user_no_pass r hp, transform_user_no_pass r hp]
  | some v =>
    have h1 : transform_user r = setKey "pass_field" v (popKey "pass" r) := by
      unfold transform_user
      rw [hp]
    rw [h1]
    apply transform_user_no_pass
    rw [lookup_setKey_ne "pass" "pass_field" v (by decide)]
    exact lookup_popKey_self "pass" r hnd

theorem transform_idempotent_c8_witness :
    transform_user (transform_user
      [("id", .pint 1), ("pass", .pstr "x"), ("role", .pstr "admin")]) =
    transform_user [("id", .pint 1), ("pass", .pstr "x"), ("role", .pstr "admin")] :=
  transform_idempotent_c8 _ (by decide)

/-! ### Encoder claim -/

theorem encodeValue_supported (v : PyVal) (h : supportedVal v = true) :
    ∃ jv, encodeValue v = some jv ∧
      ∀ q, v = .pdecimal q → jv = .jnum (nearestDouble q) := by
  cases v with
  | pstr s => exact ⟨.jstr s, rfl, fun q h => by cases h⟩
  | pint n => exact ⟨.jint n, rfl, fun q h => by cases h⟩
  | pfloat q => exact ⟨.jnum q, rfl, fun q' h => by cases h⟩
  | pbool b => exact ⟨.jbool b, rfl, fun q h => by cases h⟩
  | pnone => exact ⟨.jnull, rfl, fun q h => by cases h⟩
  | pdecimal q =>
    refine ⟨.jnum (nearestDouble q), rfl, fun q' h => ?_⟩
    injection h with h'
    rw [h']
  | pdate y m d => simp [supportedVal] at h
  | pbytes bs => simp [supportedVal] at h

/-- C9: every record whose fields are JSON-native or `Decimal` encodes
without a type error, and each `Decimal` field with exact value q is emitted
as the JSON number `nearestDouble q`, the binary64 value nearest to q; in
particular the decimal 19.99 encodes as 5626684784446013/2^48 — the
floating-point number printed as 19.99 — which is within half an ulp
(2^-49 at this magnitude) of 19.99. -/
theorem decimal_encoding_c9 :
    (∀ r : Record, (∀ kv ∈ r, supportedVal kv.2 = true) →
      ∃ out, encode_record r = some out ∧
        ∀ (k : String) (q : ℚ), (k, PyVal.pdecimal q) ∈ r →
          (k, JVal.jnum (nearestDouble q)) ∈ out) ∧
    nearestDouble (1999/100) = 5626684784446013 / 281474976710656 ∧
    |(5626684784446013 : ℚ) / 281474976710656 - 1999/100| ≤ 1 / 2 ^ 49 := by
  refine ⟨?_, ?_, by with_unfolding_all decide⟩
  · intro r
    induction r with
    | nil => intro _; exact ⟨[], rfl, fun k q h => by cases h⟩
    | cons kv rest ih =>
      intro hsup
      obtain ⟨a, v⟩ := kv
      obtain ⟨jv, hjv, hdec⟩ :=
        encodeValue_supported v (hsup (a, v) (List.mem_cons_self _ _))
      obtain ⟨out, hout, hmem⟩ := ih (fun kv h => hsup kv (List.mem_cons_of_mem _ h))
      refine ⟨(a, jv) :: out, ?_, ?_⟩
      · simp [encode_record, hjv, hout]
      · intro k q hk
        rcases List.mem_cons.mp hk with h | h
        · rw [Prod.mk.injEq] at h
          obtain ⟨h1, h2⟩ := h
          subst h1
          rw [hdec q h2.symm]
          exact List.mem_cons_self _ _
        · exact List.mem_cons_of_mem _ (hmem k q h)
  · apply Rat.ext
    · with_unfolding_all decide
    · with_unfolding_all decide

theorem decimal_encoding_c9_witness :
    ∃ out, encode_record
      [("price", PyVal.pdecimal (1999/100)), ("name", PyVal.pstr "mug")] = some out ∧
      ∀ (k : String) (q : ℚ),
        (k, PyVal.pdecimal q) ∈
          [("price", PyVal.pdecimal (1999/100)), ("name", PyVal.pstr "mug")] →
        (k, JVal.jnum (nearestDouble q)) ∈ out :=
  decimal_encoding_c9.1 _ (by decide)

/-! ### Extraction-failure claim -/

/-- C6 (counterexample): a run in which the products extraction query raises
(`db` returns `none` for it) while every other query returns no rows still
exits with code 0 — the code prints the query error, treats the table as
empty, and `main` reports overall success — contradicting the claim that the
run outcome is `Failed` (non-zero exit). -/
theorem extraction_failure_c6_counterexample :
    dbProductsFail productsQuery = none ∧
    main_exit_code "b" dbProductsFail wAllExc = 0 := by
  constructor
  · decide
  · decide

/-- C6 (amended): when a table's extraction query fails, extraction of the
remaining tables still proceeds (the fetched data always contains all four
table keys, in order), but the failure does not affect the run outcome: the
failed table is treated as having zero records, so the run behaves exactly
as if that query had returned no rows and can exit 0. -/
theorem extraction_failure_c6_amended :
    (∀ db : Database, (fetch_data db).map Prod.fst = table_names) ∧
    (∀ (base : String) (db : Database) (w : World),
      main_exit_code base db w =
        main_exit_code base (fun q => some ((db q).getD [])) w) := by
  exact ⟨fun db => rfl, fun base db w => rfl⟩

end SyncTool
